import Mathlib

/-!
# Verification of the ShopAI product pipeline (`modules/shopping.py`)

A shallow embedding of the retrieval/filter/score/sort pipeline of the ShopAI
repository, together with proofs of the specified properties.

Conventions of the embedding:
* Python strings are Lean `String`s (lists of characters); `str.lower()` is
  modelled ASCII-faithfully by `lowerC`/`pyLower`.
* The regex classes `\w` and `\s` are modelled over their ASCII content
  (`wcC`, `isWsC`).
* Python `float` prices are `ℚ`; a float that would be `inf` (an unparsable
  price) is `Option.none`.
* Python dicts backing offers become the `Offer` structure; a missing key is
  `none` / `.absent`, and a key holding a value of an unexpected type
  (which `isinstance` checks reject) is `.invalid`.
* Network calls (`requests.get`) are inputs: the fetched result list and the
  seller-lookup response are parameters of the functions that consume them.
-/

/- `Rat.mul`, `Rat.add`, `Rat.sub` and `Rat.inv` are shipped `@[irreducible]`;
re-enable definitional unfolding so that concrete pipeline runs evaluate
inside `decide`. -/
attribute [local semireducible] Rat.mul Rat.add Rat.sub Rat.inv

/-! ## Character primitives -/

/-- ASCII model of Python `str.lower()` on one character. -/
def lowerC (c : Char) : Char :=
  if 65 ≤ c.toNat ∧ c.toNat ≤ 90 then Char.ofNat (c.toNat + 32) else c

/-- ASCII content of the regex word class `\w`: `[a-zA-Z0-9_]`. -/
def wcC (c : Char) : Bool :=
  (48 ≤ c.toNat && c.toNat ≤ 57) || (65 ≤ c.toNat && c.toNat ≤ 90) ||
  (97 ≤ c.toNat && c.toNat ≤ 122) || (c.toNat == 95)

/-- ASCII content of the regex whitespace class `\s` (also the characters
Python `str.strip()` removes): space and `\t\n\v\f\r`. -/
def isWsC (c : Char) : Bool :=
  (c.toNat == 32) || (9 ≤ c.toNat && c.toNat ≤ 13)

theorem toNat_ofNat_valid (n : Nat) (h : n < 0xd800) : (Char.ofNat n).toNat = n := by
  have hv : Nat.isValidChar n := Or.inl h
  rw [Char.ofNat, dif_pos hv]
  simp [Char.ofNatAux, Char.toNat, UInt32.ofNat', UInt32.toNat, BitVec.toNat_ofNatLt]

theorem lowerC_toNat (c : Char) :
    (lowerC c).toNat = if 65 ≤ c.toNat ∧ c.toNat ≤ 90 then c.toNat + 32 else c.toNat := by
  unfold lowerC
  split
  · next h => rw [toNat_ofNat_valid]; omega
  · rfl

theorem char_toNat_inj {c d : Char} (h : c.toNat = d.toNat) : c = d := by
  have hc := Char.ofNat_toNat c
  have hd := Char.ofNat_toNat d
  rw [← hc, ← hd, h]

theorem wcC_lowerC (c : Char) : wcC (lowerC c) = wcC c := by
  have h := lowerC_toNat c
  unfold wcC
  split at h <;> rw [h] <;> simp_all <;> omega

theorem isWsC_lowerC (c : Char) : isWsC (lowerC c) = isWsC c := by
  have h := lowerC_toNat c
  unfold isWsC
  rw [h]
  split
  · next hr =>
    have h1 : ¬ (c.toNat + 32 == 32 || (9 ≤ c.toNat + 32 && c.toNat + 32 ≤ 13)) = true := by
      simp only [Bool.or_eq_true, Bool.and_eq_true, beq_iff_eq, decide_eq_true_eq]
      omega
    have h2 : ¬ (c.toNat == 32 || (9 ≤ c.toNat && c.toNat ≤ 13)) = true := by
      simp only [Bool.or_eq_true, Bool.and_eq_true, beq_iff_eq, decide_eq_true_eq]
      omega
    simp only [Bool.not_eq_true] at h1 h2
    rw [h1, h2]
  · rfl

theorem wcC_congr_of_lowerC {c d : Char} (h : lowerC c = lowerC d) : wcC c = wcC d := by
  rw [← wcC_lowerC c, ← wcC_lowerC d, h]

theorem isWsC_congr_of_lowerC {c d : Char} (h : lowerC c = lowerC d) : isWsC c = isWsC d := by
  rw [← isWsC_lowerC c, ← isWsC_lowerC d, h]

theorem eq_of_lowerC_eq_of_isWsC {c d : Char} (h : lowerC c = lowerC d)
    (hw : isWsC c = true) : c = d := by
  have hc := lowerC_toNat c
  have hd := lowerC_toNat d
  have hn : (lowerC c).toNat = (lowerC d).toNat := by rw [h]
  apply char_toNat_inj
  unfold isWsC at hw
  simp only [Bool.or_eq_true, Bool.and_eq_true, beq_iff_eq, decide_eq_true_eq] at hw
  split at hc <;> split at hd <;> omega

/-! ## List-of-characters utilities -/

/-- `lc` lowercases a character list: the ASCII model of `str.lower()`. -/
def lc (l : List Char) : List Char := l.map lowerC

/-- Model of Python `str.lower()`. -/
def pyLower (s : String) : String := ⟨lc s.data⟩

/-- `leadsWith needle hay` holds when `needle` is a leading segment of `hay`. -/
def leadsWith : List Char → List Char → Bool
  | [], _ => true
  | _ :: _, [] => false
  | a :: as', b :: bs => (a == b) && leadsWith as' bs

/-- `subOccurs needle hay` is Python's `needle in hay` substring test. -/
def subOccurs (needle : List Char) : List Char → Bool
  | [] => needle == []
  | c :: cs => leadsWith needle (c :: cs) || subOccurs needle cs

/-- Python `needle in hay` on strings. -/
def containsStr (hay needle : String) : Bool := subOccurs needle.data hay.data

/-- Remove every occurrence of one character: Python `s.replace(c, "")`. -/
def removeChar (c : Char) (s : String) : String := ⟨s.data.filter (fun d => d != c)⟩

/-- Python `s.strip()` on a character list. -/
def pyStripL (l : List Char) : List Char :=
  ((l.dropWhile isWsC).reverse.dropWhile isWsC).reverse

/-- Python `s.strip()`. -/
def pyStrip (s : String) : String := ⟨pyStripL s.data⟩

mutual

/-- `re.sub(r'\s+', ' ', ·)`: collapse each maximal whitespace run to one space. -/
def collapseWsL : List Char → List Char
  | [] => []
  | c :: cs => if isWsC c then ' ' :: skipWsL cs else c :: collapseWsL cs

/-- Skip the remainder of a whitespace run, then resume collapsing. -/
def skipWsL : List Char → List Char
  | [] => []
  | c :: cs => if isWsC c then skipWsL cs else c :: collapseWsL cs

end

/-- `re.sub(r'\s+', ' ', ·)` on strings. -/
def collapseWs (s : String) : String := ⟨collapseWsL s.data⟩

/-- `re.findall(r'\b\w+\b', ·)` with an accumulator holding the reversed
current word-character run: the maximal runs of word characters. -/
def tokensAux (cur : List Char) : List Char → List (List Char)
  | [] => if cur = [] then [] else [cur.reverse]
  | c :: cs =>
    if wcC c then tokensAux (c :: cur) cs
    else if cur = [] then tokensAux [] cs else cur.reverse :: tokensAux [] cs

/-- `re.findall(r'\b\w+\b', ·)`: the maximal runs of word characters. -/
def tokensL (l : List Char) : List (List Char) := tokensAux [] l

/-- `re.findall(r'\b\w+\b', s)` as strings. -/
def pyWords (s : String) : List String := (tokensL s.data).map (fun l => ⟨l⟩)

/-- Numeric value of a digit run. -/
def natValD (l : List Char) : Nat := l.foldl (fun a c => 10 * a + (c.toNat - 48)) 0

/-- Model of the decimal fragment of Python `float(...)` parsing: optional
surrounding whitespace, an optional sign, and a decimal literal of shape
`digits`, `digits.digits`, `digits.` or `.digits`.  Exponents and the
`inf`/`nan` spellings are outside the model.  `none` models the
`ValueError` path. -/
def parseFloat (s : String) : Option ℚ :=
  let t := pyStripL s.data
  let su : ℚ × List Char :=
    match t with
    | '-' :: r => (-1, r)
    | '+' :: r => (1, r)
    | _ => (1, t)
  let ds := su.2.takeWhile Char.isDigit
  let rest := su.2.dropWhile Char.isDigit
  match rest with
  | [] => if ds = [] then none else some (su.1 * natValD ds)
  | '.' :: r2 =>
    let fs := r2.takeWhile Char.isDigit
    let r3 := r2.dropWhile Char.isDigit
    if r3 ≠ [] then none
    else if ds = [] ∧ fs = [] then none
    else some (su.1 * ((natValD ds : ℚ) + (natValD fs : ℚ) / (10 : ℚ) ^ fs.length))
  | _ => none

/-- `float(price_str.replace("$", "").replace(",", ""))`, the price parse used
throughout the pipeline. -/
def parsePrice (price_str : String) : Option ℚ :=
  parseFloat (removeChar ',' (removeChar '$' price_str))

/-! ## The data model -/

/-- Value of the `rating` key of an offer dict: missing, a number
(`isinstance(·, (int, float))` succeeds), or a value of some other type. -/
inductive NumVal where
  | absent
  | num (q : ℚ)
  | invalid
deriving DecidableEq

/-- Value of the `reviews` key of an offer dict: missing, an `int`, or a value
of some other type (`isinstance(·, int)` fails). -/
inductive IntVal where
  | absent
  | int (n : ℤ)
  | invalid
deriving DecidableEq

/-- One raw shopping result (a Python dict).  String-valued keys are `Option`s
(`none` = key missing); `second_hand_condition` records mere key presence;
`relevance_score` and `numeric_price` are the fields the pipeline annotates
in place (defaults matching `dict.get(…, 0)` / absence). -/
structure Offer where
  title : Option String := none
  price : Option String := none
  source : Option String := none
  link : Option String := none
  product_id : Option String := none
  id : Option String := none
  rating : NumVal := .absent
  reviews : IntVal := .absent
  second_hand_condition : Bool := false
  relevance_score : ℚ := 0
  numeric_price : Option ℚ := none
deriving DecidableEq

/-- Python `a or b` for strings, where `a` comes from `dict.get` (`None` and
`""` are both falsy). -/
def orElseStr (a : Option String) (b : String) : String :=
  match a with
  | some s => if s = "" then b else s
  | none => b

/-! ## Deduplicator (`remove_duplicates`) -/

/-- `result.get("product_id") or result.get("id") or result.get("link", "")`. -/
def identOf (o : Offer) : String :=
  orElseStr o.product_id (orElseStr o.id (o.link.getD ""))

/-- `title.lower().strip()` followed by `re.sub(r'\s+', ' ', ·).strip()`. -/
def normTitleStr (t : String) : String :=
  pyStrip (collapseWs (pyStrip (pyLower t)))

/-- The normalized title key of an offer. -/
def normTitleOf (o : Offer) : String := normTitleStr (o.title.getD "")

/-- The loop of `remove_duplicates`, with the two seen-sets explicit. -/
def remove_duplicates_aux (seen_ids seen_titles : List String) :
    List Offer → List Offer
  | [] => []
  | result :: results =>
    let product_id := identOf result
    let normalized_title := normTitleOf result
    if product_id ∉ seen_ids ∧ normalized_title ∉ seen_titles then
      result :: remove_duplicates_aux (product_id :: seen_ids)
        (normalized_title :: seen_titles) results
    else remove_duplicates_aux seen_ids seen_titles results

/-- `remove_duplicates`: drop offers whose identifier or normalized title was
already seen. -/
def remove_duplicates (results : List Offer) : List Offer :=
  remove_duplicates_aux [] [] results

/-! ## Filter Chain -/

def accessory_keywords : List String :=
  ["case", "cover", "skin", "screen protector", "charger", "cable", "adapter",
   "stand", "mount", "sleeve", "bag", "keyboard", "mouse", "dock", "hub",
   "sticker", "decal", "film", "guard", "protector", "holder", "grip",
   "cleaning", "cloth", "kit", "tool", "repair", "replacement part"]

/-- `is_accessory_or_irrelevant(title, item)` (the `title` argument is already
lowercased by the caller, as in the source). -/
def is_accessory_or_irrelevant (title item : String) : Bool :=
  accessory_keywords.any
    (fun keyword => containsStr title keyword && !containsStr (pyLower item) keyword)

def used_keywords : List String :=
  ["used", "refurbished", "renewed", "pre-owned", "open box", "grade b",
   "grade c", "scratched"]

/-- `is_used_or_refurbished(product, title)`. -/
def is_used_or_refurbished (product : Offer) (title : String) : Bool :=
  product.second_hand_condition ||
    used_keywords.any (fun keyword => containsStr title keyword)

/-- Modelled from the spec: `constants.py` (present in the repository but not
under `src/`) supplies the `SITE_DOMAINS` retailer-alias table mapping each
lowercased retailer preference to its known domain aliases
(e.g. Amazon → amazon.com).  The claims proved below do not depend on the
table's exact entries. -/
def SITE_DOMAINS : List (String × List String) :=
  [("walmart", ["walmart.com"]), ("amazon", ["amazon.com"]),
   ("target", ["target.com"]), ("best buy", ["bestbuy.com"])]

/-- `get_site_domains` from `modules/utils.py`: `SITE_DOMAINS.get(pref.lower(), [])`. -/
def get_site_domains (site_preference : String) : List String :=
  ((SITE_DOMAINS.find? (fun e => e.1 == pyLower site_preference)).map Prod.snd).getD []

/-- Helper for `netlocOf`: split a character list at the first `//`. -/
def dslashSplit (acc : List Char) : List Char → Option (List Char × List Char)
  | [] => none
  | '/' :: '/' :: r => some (acc.reverse, r)
  | c :: r => dslashSplit (c :: acc) r

/-- Model of `urllib.parse.urlparse(link).netloc` for the common
`scheme://host/...` and `//host/...` shapes: the host is taken only when
everything before the first `//` is empty or ends with the scheme's `:`;
other shapes have an empty netloc. -/
def netlocOf (link : String) : String :=
  match dslashSplit [] link.data with
  | none => ""
  | some (before, after) =>
    if before = [] ∨ before.getLast? = some ':' then
      ⟨after.takeWhile (fun c => c != '/' && c != '?' && c != '#')⟩
    else ""

/-- `is_from_correct_site(product, site_pref)`. -/
def is_from_correct_site (product : Offer) (site_pref : String) : Bool :=
  if pyLower site_pref = "any" then true
  else
    let site_pref_cleaned := removeChar ' ' (pyLower site_pref)
    let source := removeChar ' ' (pyLower (product.source.getD ""))
    if containsStr source site_pref_cleaned then true
    else
      let link := product.link.getD ""
      if link ≠ "" then
        let domain := pyLower (netlocOf link)
        (get_site_domains site_pref).any (fun d => containsStr domain d)
      else false

/-- `is_price_reasonable(price, item)`: the category table is iterated in dict
insertion order and the first matching category's band is applied. -/
def is_price_reasonable (price : ℚ) (item : String) : Bool :=
  let item_lower := pyLower item
  if containsStr item_lower "macbook" then decide (500 ≤ price ∧ price ≤ 5000)
  else if containsStr item_lower "iphone" then decide (200 ≤ price ∧ price ≤ 2000)
  else if containsStr item_lower "ipad" then decide (200 ≤ price ∧ price ≤ 2000)
  else if containsStr item_lower "laptop" then decide (300 ≤ price ∧ price ≤ 5000)
  else if containsStr item_lower "tv" then decide (150 ≤ price ∧ price ≤ 5000)
  else if containsStr item_lower "tablet" then decide (100 ≤ price ∧ price ≤ 2000)
  else decide (1 ≤ price ∧ price ≤ 10000)

def stop_words : List String :=
  ["a", "an", "the", "and", "for", "with", "in", "on", "of", "to", "new"]

/-- `is_semantically_relevant(title, item)`; the returned Python set is used
for its truthiness, so the model returns its non-emptiness. -/
def is_semantically_relevant (title item : String) : Bool :=
  let item_words := (pyWords (pyLower item)).dedup
  let title_words := pyWords (pyLower title)
  let core_item_words := item_words.filter (fun w => !stop_words.contains w)
  if core_item_words = [] then true
  else core_item_words.any (fun w => title_words.contains w)

/-- `should_include_product(product, item, site_pref)`: the master filter. -/
def should_include_product (product : Offer) (item : String) (site_pref : String) : Bool :=
  let title := pyLower (product.title.getD "")
  let price_str := product.price.getD ""
  if title = "" ∨ price_str = "" then false
  else
    match parsePrice price_str with
    | none => false
    | some numeric_price =>
      if numeric_price ≤ 0 then false
      else if !is_semantically_relevant title item then false
      else if is_accessory_or_irrelevant title item then false
      else if is_used_or_refurbished product title then false
      else if !is_from_correct_site product site_pref then false
      else if !is_price_reasonable numeric_price item then false
      else true

/-- `apply_comprehensive_filters(results, item, site_pref)`. -/
def apply_comprehensive_filters (results : List Offer) (item : String)
    (site_pref : String) : List Offer :=
  results.filter (fun p => should_include_product p item site_pref)

/-! ## Relevance Scorer -/

/-- `isinstance(rating, (int, float))`; a missing key defaulted to `0` by
`dict.get('rating', 0)` counts as valid. -/
def ratingValid : NumVal → Bool
  | .absent => true
  | .num _ => true
  | .invalid => false

/-- The numeric value of `product.get('rating', 0)`. -/
def ratingNum : NumVal → ℚ
  | .absent => 0
  | .num q => q
  | .invalid => 0

/-- `isinstance(reviews, int)`; a missing key defaulted to `0` counts as valid. -/
def reviewsValid : IntVal → Bool
  | .absent => true
  | .int _ => true
  | .invalid => false

/-- The numeric value of `product.get('reviews', 0)`. -/
def reviewsNum : IntVal → ℚ
  | .absent => 0
  | .int n => (n : ℚ)
  | .invalid => 0

/-- The per-offer score computed by the loop body of
`calculate_advanced_relevance_scores`. -/
def scoreOf (item : String) (product : Offer) : ℚ :=
  let item_lower := pyLower item
  let item_words := (pyWords item_lower).dedup
  let title := pyLower (product.title.getD "")
  let common_words := item_words.filter (fun w => (pyWords title).contains w)
  let score1 : ℚ := common_words.length * 100
  let score2 := if containsStr title item_lower then score1 + 1000 else score1
  let score3 :=
    if ratingValid product.rating && reviewsValid product.reviews then
      score2 + ratingNum product.rating * 20 + min (reviewsNum product.reviews / 4) 150
    else score2
  if 100 < title.length then score3 - 25 else score3

/-- `calculate_advanced_relevance_scores(results, item)`: annotate each offer
with its relevance score. -/
def calculate_advanced_relevance_scores (results : List Offer) (item : String) :
    List Offer :=
  results.map (fun product => { product with relevance_score := scoreOf item product })

/-! ## Sorter (`sort_results`) -/

/-- The annotation loop of `sort_results`:
`product["numeric_price"] = float(product.get("price", "0")...)`, with a
parse failure producing `float('inf')` (modelled as `none`). -/
def annotate_price (product : Offer) : Offer :=
  { product with numeric_price := parsePrice (product.price.getD "0") }

/-- Comparison on annotated numeric prices, `none` playing `float('inf')`. -/
def npLeB : Option ℚ → Option ℚ → Bool
  | _, none => true
  | none, some _ => false
  | some a, some b => decide (a ≤ b)

/-- Sort key order for the `Cheapest` policy. -/
def cheapLe (a b : Offer) : Bool := npLeB a.numeric_price b.numeric_price

/-- Sort key order for the `Highest Rated` policy (descending
`x.get('rating', 0)`). -/
def ratedGe (a b : Offer) : Bool := decide (ratingNum b.rating ≤ ratingNum a.rating)

/-- Sort key order for the default (`Balanced`) policy:
ascending `(-relevance_score, numeric_price)`. -/
def balancedLe (a b : Offer) : Bool :=
  decide (b.relevance_score < a.relevance_score) ||
    (decide (a.relevance_score = b.relevance_score) &&
      npLeB a.numeric_price b.numeric_price)

/-- `'rating' in p`: key presence. -/
def hasRatingKey (p : Offer) : Bool := !(p.rating == NumVal.absent)

/-- `sort_results(filtered_results, sort_pref, item)`.  Python's `sorted` is a
stable sort by key; it is modelled by `List.mergeSort`. -/
def sort_results (filtered_results : List Offer) (sort_pref : String)
    (item : String) : List Offer :=
  let annotated := filtered_results.map annotate_price
  if sort_pref = "Cheapest" then annotated.mergeSort cheapLe
  else if sort_pref = "Highest Rated" ∧ annotated.any hasRatingKey then
    annotated.mergeSort ratedGe
  else
    (calculate_advanced_relevance_scores annotated item).mergeSort balancedLe

/-! ## Pipeline Orchestrator (`get_shopping_results`) -/

/-- `get_shopping_results(item, site_pref, sort_pref)`.  The network fetch
(`perform_search`) is I/O; its result list is the `raw_results` parameter. -/
def get_shopping_results (raw_results : List Offer) (item : String)
    (site_pref : String) (sort_pref : String) : String × List Offer :=
  if raw_results = [] then (item, [])
  else
    let unique_results := remove_duplicates raw_results
    let filtered_results := apply_comprehensive_filters unique_results item site_pref
    let sorted_results := sort_results filtered_results sort_pref item
    (item, sorted_results.take 10)

/-! ## Direct-Link Resolver (`get_enhanced_direct_link`) -/

/-- One entry of the `online_sellers` list of the product-detail lookup. -/
structure Seller where
  name : Option String := none
  link : Option String := none
deriving DecidableEq

/-- The per-seller retailer test inside the resolver's loop: the seller's
lowercased name contains the cleaned preference, or the seller link's netloc
contains one of the preference's alias domains. -/
def seller_match (site_pref : String) (seller : Seller) : Bool :=
  let site_pref_cleaned := removeChar ' ' (pyLower site_pref)
  containsStr (pyLower (seller.name.getD "")) site_pref_cleaned ||
    (get_site_domains site_pref).any
      (fun d => containsStr (pyLower (netlocOf (seller.link.getD ""))) d)

/-- `get_enhanced_direct_link(product_choice, site_pref)`.  The secondary
product-detail lookup is I/O; `lookup` is its outcome (`none` models the
request raising, i.e. the `except` path). -/
def get_enhanced_direct_link (product_choice : Offer) (site_pref : String)
    (lookup : Option (List Seller)) : Option String :=
  if (product_choice.link.getD "") ≠ "" ∧ is_from_correct_site product_choice site_pref then
    product_choice.link
  else
    let product_api_id := orElseStr product_choice.product_id (product_choice.id.getD "")
    if product_api_id = "" then product_choice.link
    else
      match lookup with
      | none => product_choice.link
      | some [] => product_choice.link
      | some (first :: rest) =>
        if pyLower site_pref ≠ "any" then
          match (first :: rest).find? (seller_match site_pref) with
          | some seller => seller.link
          | none => first.link
        else first.link

/-! ## Query Builder (`clean_search_query`) -/

/-- Word-boundary test on the character preceding the scan position (`none`
at the start of the string): for the patterns below, whose first and last
characters are word characters, `\b` holds exactly when the neighbour is not
a word character. -/
def bndAfterW (u : List Char) (bnd : Bool) : Bool :=
  match u.getLast? with
  | some d => !wcC d
  | none => bnd

/-- Case-insensitive leading-segment match of a pattern. -/
def ciLead : List Char → List Char → Bool
  | [], _ => true
  | _ :: _, [] => false
  | p :: ps, c :: cs => (lowerC p == lowerC c) && ciLead ps cs

/-- `\b` after the matched region: end of string or a non-word character. -/
def bAfter (n : Nat) (s : List Char) : Bool :=
  match s.drop n with
  | [] => true
  | c :: _ => !wcC c

/-- The full match test of `\b…\b` with `re.IGNORECASE` at the current scan
position: boundary before, case-insensitive pattern match, boundary after. -/
def matchCond (pat : List Char) (bnd : Bool) (s : List Char) : Bool :=
  bnd && ciLead pat s && bAfter pat.length s

/-- One `re.sub(rf'\b{pat}\b', rep, s, flags=re.IGNORECASE)` pass: scan left
to right, replacing each (leftmost, non-overlapping) boundary-delimited
case-insensitive occurrence of `pat` with `rep`.  `bnd` says whether the
previous character (in the original text) was a boundary. -/
def subA (pat rep : List Char) (bnd : Bool) (s : List Char) : List Char :=
  match s with
  | [] => []
  | c :: cs =>
    if matchCond pat bnd (c :: cs) then
      rep ++ subA pat rep (bndAfterW ((c :: cs).take pat.length) bnd)
        (cs.drop (pat.length - 1))
    else c :: subA pat rep (!wcC c) cs
termination_by s.length
decreasing_by
  · simp only [List.length_cons]
    exact Nat.lt_succ_of_le (by simpa using List.length_drop_le (pat.length - 1) cs)
  · simp

/-- The `replacements` table of `clean_search_query`, in dict insertion order. -/
def replacements : List (List Char × List Char) :=
  [("macbook pro".data, "MacBook Pro".data),
   ("macbook air".data, "MacBook Air".data),
   ("iphone".data, "iPhone".data),
   ("ipad".data, "iPad".data)]

/-- The `for old, new in replacements.items()` loop of `clean_search_query`:
apply each case-correcting word-boundary substitution in order. -/
def subAll (l : List Char) : List Char :=
  replacements.foldl (fun s pr => subA pr.1 pr.2 true s) l

/-- `clean_search_query(query)`: collapse whitespace on the stripped query,
then run the replacement loop. -/
def clean_search_query (query : String) : String :=
  ⟨subAll (collapseWsL (pyStripL query.data))⟩

/-- `optimize_query_for_google_shopping(item_name, site_preference)`. -/
def optimize_query_for_google_shopping (item_name : String)
    (site_preference : String) : String :=
  let cleaned_query := clean_search_query item_name
  let parts1 :=
    if !containsStr (pyLower cleaned_query) "new" then [("new" : String)] else []
  let parts2 :=
    if pyLower site_preference ≠ "any" then parts1 ++ [site_preference] else parts1
  String.intercalate " " (cleaned_query :: parts2)

/-! ## Claim C5: orchestrator top-N bound and empty-fetch behaviour -/

/-- **C5.** For every item, retailer preference, and sort policy, the Pipeline
Orchestrator returns a pair `(item, offers)` where the offer list has length
at most 10; and whenever the fetch yields an empty result list, it returns
`(item, [])` immediately without raising (the function is total). -/
theorem C5_orchestrator_topN_and_empty_fetch :
    (∀ (raw_results : List Offer) (item site_pref sort_pref : String),
      (get_shopping_results raw_results item site_pref sort_pref).2.length ≤ 10) ∧
    (∀ (item site_pref sort_pref : String),
      get_shopping_results [] item site_pref sort_pref = (item, [])) := by
  constructor
  · intro raw_results item site_pref sort_pref
    unfold get_shopping_results
    split
    · simp
    · simpa using List.length_take_le 10 _
  · intro item site_pref sort_pref
    rfl

/-! ## Claim C10: the price-band dispatch -/

/-- The category price-band table of `is_price_reasonable`, in its dict
insertion order. -/
def price_ranges : List (String × ℚ × ℚ) :=
  [("macbook", 500, 5000), ("iphone", 200, 2000), ("ipad", 200, 2000),
   ("laptop", 300, 5000), ("tv", 150, 5000), ("tablet", 100, 2000)]

/-- Band dispatch as the claim describes it: the first category (in the fixed
order of `price_ranges`) whose keyword occurs in the lowercased item name
supplies the band; the default band 1–10000 applies only when no category
matches; both endpoints are inclusive. -/
def priceBandSpec (price : ℚ) (item : String) : Bool :=
  match price_ranges.find? (fun e => containsStr (pyLower item) e.1) with
  | some (_, lo, hi) => decide (lo ≤ price ∧ price ≤ hi)
  | none => decide (1 ≤ price ∧ price ≤ 10000)

/-- **C10.** The price-band filter applies the band of the first matching
category in the fixed order macbook, iphone, ipad, laptop, tv, tablet (an
item containing both "macbook" and "tablet" is checked against the 500–5000
band), and the default band 1–10000 (endpoints inclusive) is used only when
no category matches. -/
theorem C10_price_band_first_match (price : ℚ) (item : String) :
    is_price_reasonable price item = priceBandSpec price item := by
  simp only [is_price_reasonable, priceBandSpec, price_ranges, List.find?]
  cases h1 : containsStr (pyLower item) "macbook" <;>
    cases h2 : containsStr (pyLower item) "iphone" <;>
      cases h3 : containsStr (pyLower item) "ipad" <;>
        cases h4 : containsStr (pyLower item) "laptop" <;>
          cases h5 : containsStr (pyLower item) "tv" <;>
            cases h6 : containsStr (pyLower item) "tablet" <;>
              simp [h1, h2, h3, h4, h5, h6]

/-! ## Claim C6: Highest Rated silently falls back to Balanced -/

/-- **C6.** For every list of offers in which no offer carries a rating field,
sorting with the `Highest Rated` policy returns exactly the same list as
sorting with the `Balanced` policy. -/
theorem C6_highest_rated_fallback (l : List Offer) (item : String)
    (hno : ∀ p ∈ l, p.rating = NumVal.absent) :
    sort_results l "Highest Rated" item = sort_results l "Balanced" item := by
  have hany : (l.map annotate_price).any hasRatingKey = false := by
    simp only [List.any_map, List.any_eq_false, Function.comp]
    intro p hp
    simp [hasRatingKey, annotate_price, hno p hp]
  unfold sort_results
  rw [if_neg (by decide), if_neg (by simp [hany]), if_neg (by decide),
    if_neg (by simp)]

/-- Witness for C6 at a concrete rating-free offer list. -/
theorem C6_witness :
    sort_results [{ title := some "t", price := some "$5" }] "Highest Rated" "t" =
      sort_results [{ title := some "t", price := some "$5" }] "Balanced" "t" :=
  C6_highest_rated_fallback _ _ (by decide)

/-! ## Claims C2 and C9: the Deduplicator -/

theorem remove_duplicates_aux_sublist (seen_ids seen_titles : List String)
    (l : List Offer) :
    (remove_duplicates_aux seen_ids seen_titles l).Sublist l := by
  induction l generalizing seen_ids seen_titles with
  | nil => simp [remove_duplicates_aux]
  | cons r rs ih =>
    simp only [remove_duplicates_aux]
    split
    · exact (ih _ _).cons₂ r
    · exact (ih _ _).cons r

theorem mem_remove_duplicates_aux {seen_ids seen_titles : List String}
    {l : List Offer} {x : Offer}
    (hx : x ∈ remove_duplicates_aux seen_ids seen_titles l) :
    identOf x ∉ seen_ids ∧ normTitleOf x ∉ seen_titles := by
  induction l generalizing seen_ids seen_titles with
  | nil => simp [remove_duplicates_aux] at hx
  | cons r rs ih =>
    simp only [remove_duplicates_aux] at hx
    split at hx
    · next hc =>
      rcases List.mem_cons.1 hx with h | h
      · subst h; exact hc
      · have h2 := ih h
        exact ⟨fun hm => h2.1 (List.mem_cons_of_mem _ hm),
          fun hm => h2.2 (List.mem_cons_of_mem _ hm)⟩
    · exact ih hx

theorem remove_duplicates_aux_pairwise (seen_ids seen_titles : List String)
    (l : List Offer) :
    (remove_duplicates_aux seen_ids seen_titles l).Pairwise
      (fun a b => identOf a ≠ identOf b ∧ normTitleOf a ≠ normTitleOf b) := by
  induction l generalizing seen_ids seen_titles with
  | nil => simp [remove_duplicates_aux]
  | cons r rs ih =>
    simp only [remove_duplicates_aux]
    split
    · refine List.Pairwise.cons ?_ (ih _ _)
      intro b hb
      have h := mem_remove_duplicates_aux hb
      refine ⟨fun he => h.1 ?_, fun he => h.2 ?_⟩
      · rw [← he]; exact List.mem_cons_self _ _
      · rw [← he]; exact List.mem_cons_self _ _
    · exact ih _ _

theorem remove_duplicates_aux_covers (seen_ids seen_titles : List String)
    (l : List Offer) (x : Offer) (hx : x ∈ l) :
    identOf x ∈ seen_ids ∨ normTitleOf x ∈ seen_titles ∨
      ∃ y ∈ remove_duplicates_aux seen_ids seen_titles l,
        identOf y = identOf x ∨ normTitleOf y = normTitleOf x := by
  induction l generalizing seen_ids seen_titles with
  | nil => simp at hx
  | cons r rs ih =>
    simp only [remove_duplicates_aux]
    rcases List.mem_cons.1 hx with rfl | hx'
    · split
      · exact Or.inr (Or.inr ⟨x, List.mem_cons_self _ _, Or.inl rfl⟩)
      · next hc =>
        rcases not_and_or.1 hc with h | h
        · exact Or.inl (not_not.1 h)
        · exact Or.inr (Or.inl (not_not.1 h))
    · split
      · rcases ih (identOf r :: seen_ids) (normTitleOf r :: seen_titles) hx' with
          h | h | ⟨y, hy, hk⟩
        · rcases List.mem_cons.1 h with he | h'
          · exact Or.inr (Or.inr ⟨r, List.mem_cons_self _ _, Or.inl he.symm⟩)
          · exact Or.inl h'
        · rcases List.mem_cons.1 h with he | h'
          · exact Or.inr (Or.inr ⟨r, List.mem_cons_self _ _, Or.inr he.symm⟩)
          · exact Or.inr (Or.inl h')
        · exact Or.inr (Or.inr ⟨y, List.mem_cons_of_mem _ hy, hk⟩)
      · exact ih seen_ids seen_titles hx'

/-- **C2.** The Deduplicator's output contains no two offers sharing a
non-empty identifier and no two offers sharing a normalized title; the
surviving offers appear in input order (the output is a sublist of the
input); and later duplicates are the only offers dropped: every input offer
shares its identifier or its normalized title with some surviving offer (the
first occurrence of its keys). -/
theorem C2_dedup_sound (results : List Offer) :
    (remove_duplicates results).Pairwise
      (fun a b => (identOf a ≠ "" → identOf a ≠ identOf b) ∧
        normTitleOf a ≠ normTitleOf b) ∧
    (remove_duplicates results).Sublist results ∧
    ∀ x ∈ results, ∃ y ∈ remove_duplicates results,
      identOf y = identOf x ∨ normTitleOf y = normTitleOf x := by
  refine ⟨?_, remove_duplicates_aux_sublist [] [] results, ?_⟩
  · exact (remove_duplicates_aux_pairwise [] [] results).imp
      (fun h => ⟨fun _ => h.1, h.2⟩)
  · intro x hx
    rcases remove_duplicates_aux_covers [] [] results x hx with h | h | h
    · simp at h
    · simp at h
    · exact h

/-- Witness for C2: a second offer with the same product id as the first is
dropped, and it is covered by the survivor. -/
theorem C2_witness :
    (remove_duplicates [{ product_id := some "A", title := some "T1" },
        { product_id := some "A", title := some "T2" }]).Pairwise
      (fun a b => (identOf a ≠ "" → identOf a ≠ identOf b) ∧
        normTitleOf a ≠ normTitleOf b) ∧
    (remove_duplicates [{ product_id := some "A", title := some "T1" },
        { product_id := some "A", title := some "T2" }]).Sublist
      [{ product_id := some "A", title := some "T1" },
        { product_id := some "A", title := some "T2" }] ∧
    ∃ y ∈ remove_duplicates [{ product_id := some "A", title := some "T1" },
        { product_id := some "A", title := some "T2" }],
      identOf y = identOf { product_id := some "A", title := some "T2" } ∨
      normTitleOf y = normTitleOf { product_id := some "A", title := some "T2" } := by
  have h := C2_dedup_sound [{ product_id := some "A", title := some "T1" },
    { product_id := some "A", title := some "T2" }]
  exact ⟨h.1, h.2.1, h.2.2 _ (by decide)⟩

theorem length_filter_key_le_one {l : List Offer}
    (h : l.Pairwise (fun a b => identOf a ≠ identOf b)) (c : String) :
    (l.filter (fun o => identOf o == c)).length ≤ 1 := by
  induction l with
  | nil => simp
  | cons a l ih =>
    rcases List.pairwise_cons.1 h with ⟨ha, hl⟩
    rw [List.filter_cons]
    by_cases hc : (identOf a == c) = true
    · rw [if_pos hc]
      have hnil : l.filter (fun o => identOf o == c) = [] := by
        rw [List.filter_eq_nil]
        intro b hb
        simp only [beq_iff_eq]
        intro he
        exact ha b hb (by rw [he, ← beq_iff_eq.1 hc])
      simp [hnil]
    · rw [if_neg hc]
      exact ih hl

/-- **C9.** An offer lacking `product_id`, `id` and `link` gets the empty
string as its identifier, and at most one identifier-less offer survives
deduplication (later identifier-less offers are dropped even when their
normalized titles are new, since the empty identifier has been seen). -/
theorem C9_empty_identifier (o : Offer) (results : List Offer)
    (h1 : o.product_id = none) (h2 : o.id = none) (h3 : o.link = none) :
    identOf o = "" ∧
    ((remove_duplicates results).filter (fun x => identOf x == "")).length ≤ 1 := by
  constructor
  · simp [identOf, orElseStr, h1, h2, h3]
  · exact length_filter_key_le_one
      ((remove_duplicates_aux_pairwise [] [] results).imp (fun h => h.1)) ""

/-- Witness for C9: two offers with no identifier sources and fresh titles;
only one survives. -/
theorem C9_witness :
    identOf { title := some "T1" } = "" ∧
    ((remove_duplicates [{ title := some "T1" }, { title := some "T2" }]).filter
      (fun x => identOf x == "")).length ≤ 1 :=
  C9_empty_identifier { title := some "T1" }
    [{ title := some "T1" }, { title := some "T2" }] rfl rfl rfl

/-! ## Claim C3: Filter Chain soundness -/

theorem pyLower_eq_empty_iff (s : String) : pyLower s = "" ↔ s = "" := by
  cases s with
  | mk data =>
    simp [pyLower, lc, String.ext_iff]

/-- **C3.** Every offer passing `should_include_product` has a price string
that parses (after stripping `$` and `,`) to a numeric price strictly greater
than 0, a non-empty title, and no accessory keyword occurring (as a
substring, case-insensitively as the filter checks it) in its title unless
that keyword also occurs in the item name. -/
theorem C3_filter_soundness (product : Offer) (item site_pref : String)
    (h : should_include_product product item site_pref = true) :
    (∃ q, parsePrice (product.price.getD "") = some q ∧ 0 < q) ∧
    product.title.getD "" ≠ "" ∧
    ∀ keyword ∈ accessory_keywords,
      containsStr (pyLower (product.title.getD "")) keyword = true →
      containsStr (pyLower item) keyword = true := by
  unfold should_include_product at h
  simp only at h
  split at h
  · exact absurd h (by simp)
  · next hne =>
    push_neg at hne
    split at h
    · exact absurd h (by simp)
    · next q hq =>
      split at h
      · exact absurd h (by simp)
      · next hq0 =>
        split at h
        · exact absurd h (by simp)
        · split at h
          · exact absurd h (by simp)
          · next hacc =>
            refine ⟨⟨q, hq, not_le.1 hq0⟩,
              fun ht => hne.1 (by rw [ht]; rfl), ?_⟩
            intro keyword hkw hint
            by_contra hni
            apply hacc
            unfold is_accessory_or_irrelevant
            rw [List.any_eq_true]
            exact ⟨keyword, hkw, by simp [hint, hni]⟩

/-- A concrete offer that survives the Filter Chain. -/
def c3Offer : Offer :=
  { title := some "Apple MacBook Pro 14", price := some "$1,299.00" }

/-- Witness for C3 at a concrete surviving offer. -/
theorem C3_witness :
    (∃ q, parsePrice (c3Offer.price.getD "") = some q ∧ 0 < q) ∧
    c3Offer.title.getD "" ≠ "" ∧
    ∀ keyword ∈ accessory_keywords,
      containsStr (pyLower (c3Offer.title.getD "")) keyword = true →
      containsStr (pyLower "macbook pro") keyword = true :=
  C3_filter_soundness c3Offer "macbook pro" "any" (by decide)

/-! ## Claim C4: the Relevance Scorer's rating/review bonuses -/

/-- The scoring formula exactly as claim C4 states it: the rating bonus is
conditioned only on the rating being a valid number and the review bonus only
on the review count being a valid integer. -/
def claimScore (item : String) (product : Offer) : ℚ :=
  let item_lower := pyLower item
  let title := pyLower (product.title.getD "")
  let overlap : ℚ :=
    (((pyWords item_lower).dedup).filter (fun w => (pyWords title).contains w)).length
  100 * overlap +
  (if containsStr title item_lower then 1000 else 0) +
  (if ratingValid product.rating then ratingNum product.rating * 20 else 0) +
  (if reviewsValid product.reviews then min (reviewsNum product.reviews / 4) 150 else 0) -
  (if 100 < title.length then 25 else 0)

/-- The scoring formula as the code actually computes it: the two bonuses are
added jointly, both conditioned on `rating` being a valid number AND
`reviews` being a valid integer. -/
def amendedScore (item : String) (product : Offer) : ℚ :=
  let item_lower := pyLower item
  let title := pyLower (product.title.getD "")
  let overlap : ℚ :=
    (((pyWords item_lower).dedup).filter (fun w => (pyWords title).contains w)).length
  100 * overlap +
  (if containsStr title item_lower then 1000 else 0) +
  (if ratingValid product.rating && reviewsValid product.reviews then
    ratingNum product.rating * 20 + min (reviewsNum product.reviews / 4) 150
  else 0) -
  (if 100 < title.length then 25 else 0)

/-- An offer whose rating is a valid number but whose review count holds an
invalid (non-`int`) value. -/
def c4Offer : Offer := { title := some "x", rating := .num 5, reviews := .invalid }

/-- **C4 counterexample.** The claim's per-field formula disagrees with the
scorer on an offer with a valid rating and an invalid review count: the code
then adds neither bonus, while the claim's formula adds the rating bonus. -/
theorem C4_counterexample :
    calculate_advanced_relevance_scores [c4Offer] "x" ≠
      [{ c4Offer with relevance_score := claimScore "x" c4Offer }] := by
  decide

theorem scoreOf_eq_amendedScore (item : String) (product : Offer) :
    scoreOf item product = amendedScore item product := by
  unfold scoreOf amendedScore
  by_cases hc : containsStr (pyLower (product.title.getD "")) (pyLower item) = true <;>
    by_cases hr : (ratingValid product.rating && reviewsValid product.reviews) = true <;>
      by_cases hl : 100 < (pyLower (product.title.getD "")).length <;>
        simp only [hc, hr, hl, Bool.false_eq_true, if_true, if_false,
          not_false_iff] <;> ring

/-- **C4 (amended).** The Relevance Scorer's total is 100 × word overlap,
plus 1000 for an exact-phrase match, plus the rating bonus (`rating × 20`)
and the review bonus (`min(reviews / 4, 150)`) — the two bonuses added
jointly, only when the rating is a valid number AND the review count is a
valid integer (a missing field defaults to 0 and counts as valid) — minus 25
when the title exceeds 100 characters. -/
theorem C4_scorer_formula (results : List Offer) (item : String) :
    calculate_advanced_relevance_scores results item =
      results.map (fun product =>
        { product with relevance_score := amendedScore item product }) := by
  unfold calculate_advanced_relevance_scores
  apply List.map_congr_left
  intro p _
  rw [scoreOf_eq_amendedScore]

/-! ## Claim C1: Balanced sort order -/

theorem npLeB_trans {a b c : Option ℚ} (hab : npLeB a b = true)
    (hbc : npLeB b c = true) : npLeB a c = true := by
  cases a <;> cases b <;> cases c <;> simp_all [npLeB] <;>
    exact le_trans hab hbc

theorem npLeB_total (a b : Option ℚ) : npLeB a b || npLeB b a := by
  cases a <;> cases b <;>
    simp only [npLeB, Bool.or_eq_true, decide_eq_true_eq, Bool.or_self] <;>
      first
        | trivial
        | exact le_total _ _

theorem balancedLe_trans (a b c : Offer) (hab : balancedLe a b) (hbc : balancedLe b c) :
    balancedLe a c := by
  unfold balancedLe at *
  simp only [Bool.or_eq_true, Bool.and_eq_true, decide_eq_true_eq] at *
  rcases hab with h1 | ⟨h1, h1p⟩ <;> rcases hbc with h2 | ⟨h2, h2p⟩
  · exact Or.inl (lt_trans h2 h1)
  · exact Or.inl (h2 ▸ h1)
  · exact Or.inl (h1 ▸ h2)
  · exact Or.inr ⟨h1.trans h2, npLeB_trans h1p h2p⟩

theorem balancedLe_total (a b : Offer) : balancedLe a b || balancedLe b a := by
  unfold balancedLe
  simp only [Bool.or_eq_true, Bool.and_eq_true, decide_eq_true_eq]
  rcases lt_trichotomy a.relevance_score b.relevance_score with h | h | h
  · exact Or.inr (Or.inl h)
  · have htot := npLeB_total a.numeric_price b.numeric_price
    rw [Bool.or_eq_true] at htot
    rcases htot with hp | hp
    · exact Or.inl (Or.inr ⟨h, hp⟩)
    · exact Or.inr (Or.inr ⟨h.symm, hp⟩)
  · exact Or.inl (Or.inl h)

/-- **C1.** Under the Balanced (default) sort policy, for every list of
scored offers the sorter's output satisfies: for all positions `i < j`,
either `score i > score j`, or the scores are equal and
`price i ≤ price j` (with an unparsable price playing `+∞`). -/
theorem C1_balanced_sort_order (l : List Offer) (item : String)
    (i j : Fin (sort_results l "Balanced" item).length) (hij : i < j) :
    ((sort_results l "Balanced" item).get i).relevance_score >
      ((sort_results l "Balanced" item).get j).relevance_score ∨
    (((sort_results l "Balanced" item).get i).relevance_score =
        ((sort_results l "Balanced" item).get j).relevance_score ∧
      npLeB ((sort_results l "Balanced" item).get i).numeric_price
        ((sort_results l "Balanced" item).get j).numeric_price = true) := by
  have hp : (sort_results l "Balanced" item).Pairwise (fun a b => balancedLe a b = true) := by
    unfold sort_results
    rw [if_neg (by decide), if_neg (by simp)]
    exact List.sorted_mergeSort balancedLe_trans
      (fun a b => balancedLe_total a b) _
  have hb := List.pairwise_iff_get.1 hp i j hij
  unfold balancedLe at hb
  simp only [Bool.or_eq_true, Bool.and_eq_true, decide_eq_true_eq] at hb
  rcases hb with h | ⟨h1, h2⟩
  · exact Or.inl h
  · exact Or.inr ⟨h1, h2⟩

/-- A two-offer list on which the C1 witness instantiates the sort theorem. -/
def c1List : List Offer :=
  [{ title := some "b", price := some "$5" }, { title := some "a", price := some "$3" }]

theorem c1_len : (sort_results c1List "Balanced" "a").length = 2 := by
  unfold sort_results
  rw [if_neg (by decide), if_neg (by simp)]
  simp [List.length_mergeSort, calculate_advanced_relevance_scores, c1List]

/-- Witness for C1 at the concrete two-element list. -/
theorem C1_witness :
    ((sort_results c1List "Balanced" "a").get ⟨0, by rw [c1_len]; omega⟩).relevance_score >
      ((sort_results c1List "Balanced" "a").get ⟨1, by rw [c1_len]; omega⟩).relevance_score ∨
    (((sort_results c1List "Balanced" "a").get ⟨0, by rw [c1_len]; omega⟩).relevance_score =
        ((sort_results c1List "Balanced" "a").get ⟨1, by rw [c1_len]; omega⟩).relevance_score ∧
      npLeB ((sort_results c1List "Balanced" "a").get ⟨0, by rw [c1_len]; omega⟩).numeric_price
        ((sort_results c1List "Balanced" "a").get ⟨1, by rw [c1_len]; omega⟩).numeric_price = true) :=
  C1_balanced_sort_order c1List "a" ⟨0, by rw [c1_len]; omega⟩ ⟨1, by rw [c1_len]; omega⟩
    (by simp)

/-! ## Claim C7: the Direct-Link Resolver -/

/-- **C7.** For every chosen offer, retailer preference and lookup outcome:
if the offer carries a (non-empty) link and already satisfies the
correct-retailer predicate, the resolver returns that link unchanged (no
secondary lookup is consulted); and if the offer carries no product
identifier (`product_id` and `id` both missing or empty), the resolver
returns the offer's original link (possibly absent) rather than raising. -/
theorem C7_resolver_fallbacks (product_choice : Offer) (site_pref : String)
    (lookup : Option (List Seller)) :
    (∀ s, product_choice.link = some s → s ≠ "" →
      is_from_correct_site product_choice site_pref = true →
      get_enhanced_direct_link product_choice site_pref lookup = some s) ∧
    ((product_choice.product_id = none ∨ product_choice.product_id = some "") →
      (product_choice.id = none ∨ product_choice.id = some "") →
      get_enhanced_direct_link product_choice site_pref lookup =
        product_choice.link) := by
  constructor
  · intro s hs hne hsite
    unfold get_enhanced_direct_link
    rw [if_pos ⟨by simp [hs, hne], hsite⟩, hs]
  · intro hpid hid
    have hapi : orElseStr product_choice.product_id (product_choice.id.getD "") = "" := by
      rcases hpid with h | h <;> rcases hid with h' | h' <;>
        simp [orElseStr, h, h']
    unfold get_enhanced_direct_link
    split
    · rfl
    · rw [if_pos hapi]

/-- A concrete offer whose link already satisfies the retailer predicate. -/
def c7Offer : Offer :=
  { link := some "https://www.amazon.com/dp/x", source := some "Amazon" }

/-- Witness for C7: a correct-retailer offer keeps its own link, and an
identifier-less offer falls back to its original link. -/
theorem C7_witness :
    (∀ s, c7Offer.link = some s → s ≠ "" →
      is_from_correct_site c7Offer "Amazon" = true →
      get_enhanced_direct_link c7Offer "Amazon" none = some s) ∧
    ((c7Offer.product_id = none ∨ c7Offer.product_id = some "") →
      (c7Offer.id = none ∨ c7Offer.id = some "") →
      get_enhanced_direct_link c7Offer "Amazon" none = c7Offer.link) :=
  C7_resolver_fallbacks c7Offer "Amazon" none

/-! ## Claim C8: idempotence of the Query Builder's normalization

The proof works through a small theory of the case-insensitive
word-boundary substitution `subA`: every replacement text in
`replacements` is a case-variant of its pattern, so a substitution pass
changes the scanned string only up to letter case (`lc`-pointwise), and
the scan's decisions (matches and boundaries) depend only on the
lowercased string.  A second pass therefore re-matches exactly at the
already-replaced blocks and rewrites them with the same text. -/

theorem lc_length (l : List Char) : (lc l).length = l.length := by
  simp [lc]

theorem length_eq_of_lc {a b : List Char} (h : lc a = lc b) : a.length = b.length := by
  have := congrArg List.length h
  simpa [lc] using this

theorem lc_append (a b : List Char) : lc (a ++ b) = lc a ++ lc b := by
  simp [lc]

theorem lc_take (n : Nat) (l : List Char) : lc (l.take n) = (lc l).take n := by
  simp [lc, List.map_take]

theorem lc_drop (n : Nat) (l : List Char) : lc (l.drop n) = (lc l).drop n := by
  simp [lc, List.map_drop]

theorem ciLead_eq_leadsWith (p s : List Char) : ciLead p s = leadsWith (lc p) (lc s) := by
  induction p generalizing s with
  | nil => simp [ciLead, lc, leadsWith]
  | cons a as' ih =>
    cases s with
    | nil => simp [ciLead, lc, leadsWith]
    | cons b bs => simp [ciLead, lc, leadsWith, ih]

theorem leadsWith_iff_take {p s : List Char} :
    leadsWith p s = true ↔ s.take p.length = p ∧ p.length ≤ s.length := by
  induction p generalizing s with
  | nil => simp [leadsWith]
  | cons a as' ih =>
    cases s with
    | nil => simp [leadsWith]
    | cons b bs =>
      simp only [leadsWith, Bool.and_eq_true, beq_iff_eq, List.length_cons,
        List.take_succ_cons, List.cons.injEq, ih, Nat.succ_le_succ_iff]
      constructor
      · rintro ⟨h1, h2, h3⟩; exact ⟨⟨h1.symm, h2⟩, h3⟩
      · rintro ⟨⟨h1, h2⟩, h3⟩; exact ⟨h1.symm, h2, h3⟩

theorem take_leadsWith (n : Nat) (s : List Char) : leadsWith (s.take n) s = true := by
  induction s generalizing n with
  | nil => cases n <;> simp [leadsWith]
  | cons b bs ih =>
    cases n with
    | zero => simp [leadsWith]
    | succ n => simp [leadsWith, ih]

theorem leadsWith_append_take {p a b : List Char}
    (h : leadsWith p (a ++ b) = true) :
    leadsWith (p.take a.length) a = true := by
  rcases leadsWith_iff_take.1 h with ⟨h1, h2⟩
  rcases Nat.le_total p.length a.length with hle | hle
  · have : a.take p.length = p := by
      rw [← h1]
      rw [List.take_append_eq_append_take]
      have h0 : p.length - a.length = 0 := by omega
      simp [h0]
    rw [List.take_of_length_le hle]
    rw [← this]
    exact take_leadsWith _ _
  · have ha : (p.take a.length).length = a.length := by
      simp [List.length_take]; omega
    have hc := congrArg (List.take a.length) h1
    rw [List.take_take, Nat.min_eq_left hle, List.take_left] at hc
    rw [leadsWith_iff_take]
    refine ⟨?_, le_of_eq ha⟩
    rw [ha, List.take_length]
    exact hc

theorem ciLead_congr {s s' : List Char} (p : List Char) (h : lc s = lc s') :
    ciLead p s = ciLead p s' := by
  rw [ciLead_eq_leadsWith, ciLead_eq_leadsWith, h]

theorem bAfter_congr {s s' : List Char} (n : Nat) (h : lc s = lc s') :
    bAfter n s = bAfter n s' := by
  have hd : lc (s.drop n) = lc (s'.drop n) := by rw [lc_drop, lc_drop, h]
  unfold bAfter
  cases hs : s.drop n with
  | nil =>
    cases hs' : s'.drop n with
    | nil => rfl
    | cons c' cs' => rw [hs, hs'] at hd; simp [lc] at hd
  | cons c cs =>
    cases hs' : s'.drop n with
    | nil => rw [hs, hs'] at hd; simp [lc] at hd
    | cons c' cs' =>
      rw [hs, hs'] at hd
      simp only [lc, List.map_cons, List.cons.injEq] at hd
      simp [wcC_congr_of_lowerC hd.1]

theorem matchCond_congr {s s' : List Char} (pat : List Char) (bnd : Bool)
    (h : lc s = lc s') : matchCond pat bnd s = matchCond pat bnd s' := by
  unfold matchCond
  rw [ciLead_congr pat h, bAfter_congr pat.length h]

theorem bndAfterW_congr {u u' : List Char} (bnd : Bool) (h : lc u = lc u') :
    bndAfterW u bnd = bndAfterW u' bnd := by
  have hr : lc u.reverse = lc u'.reverse := by
    unfold lc
    rw [List.map_reverse, List.map_reverse]
    exact congrArg List.reverse h
  unfold bndAfterW
  rw [← List.head?_reverse, ← List.head?_reverse]
  cases hu : u.reverse with
  | nil =>
    cases hu' : u'.reverse with
    | nil => rfl
    | cons c' cs' => rw [hu, hu'] at hr; simp [lc] at hr
  | cons c cs =>
    cases hu' : u'.reverse with
    | nil => rw [hu, hu'] at hr; simp [lc] at hr
    | cons c' cs' =>
      rw [hu, hu'] at hr
      simp only [lc, List.map_cons, List.cons.injEq] at hr
      simp [wcC_congr_of_lowerC hr.1]

theorem subA_nil (pat rep : List Char) (bnd : Bool) : subA pat rep bnd [] = [] := by
  rw [subA]

theorem subA_cons_pos {pat : List Char} (rep : List Char) {bnd : Bool}
    {c : Char} {cs : List Char} (hne : pat ≠ [])
    (h : matchCond pat bnd (c :: cs) = true) :
    subA pat rep bnd (c :: cs) =
      rep ++ subA pat rep (bndAfterW ((c :: cs).take pat.length) bnd)
        ((c :: cs).drop pat.length) := by
  obtain ⟨k, hk⟩ : ∃ k, pat.length = k + 1 :=
    Nat.exists_eq_succ_of_ne_zero (by simpa using hne)
  rw [subA, if_pos h, hk]
  simp [List.drop_succ_cons]

theorem subA_cons_neg {pat : List Char} (rep : List Char) {bnd : Bool}
    {c : Char} {cs : List Char} (h : matchCond pat bnd (c :: cs) = false) :
    subA pat rep bnd (c :: cs) = c :: subA pat rep (!wcC c) cs := by
  rw [subA, if_neg (by simp [h])]

theorem ciLead_of_matchCond {pat s : List Char} {bnd : Bool}
    (h : matchCond pat bnd s = true) : ciLead pat s = true := by
  unfold matchCond at h
  simp only [Bool.and_eq_true] at h
  exact h.1.2

theorem ciLead_lc_take {pat s : List Char} (h : ciLead pat s = true) :
    lc (s.take pat.length) = lc pat ∧ pat.length ≤ s.length := by
  rw [ciLead_eq_leadsWith] at h
  rcases leadsWith_iff_take.1 h with ⟨h1, h2⟩
  constructor
  · rw [lc_take, ← lc_length pat, h1]
  · rw [← lc_length pat, ← lc_length s]; exact h2

theorem lc_subA {pat rep : List Char} (hlc : lc rep = lc pat) (hne : pat ≠ []) :
    ∀ (s : List Char) (bnd : Bool), lc (subA pat rep bnd s) = lc s := by
  have main : ∀ (n : Nat) (s : List Char) (bnd : Bool), s.length ≤ n →
      lc (subA pat rep bnd s) = lc s := by
    intro n
    induction n with
    | zero =>
      intro s bnd hlen
      rw [List.length_eq_zero.1 (Nat.le_zero.1 hlen), subA_nil]
    | succ n ih =>
      intro s bnd hlen
      match s with
      | [] => rw [subA_nil]
      | c :: cs =>
        cases hm : matchCond pat bnd (c :: cs) with
        | false =>
          rw [subA_cons_neg rep hm]
          have hcs : cs.length ≤ n := by
            simp only [List.length_cons] at hlen; omega
          have := ih cs (!wcC c) hcs
          simp only [lc, List.map_cons] at *
          rw [this]
        | true =>
          rw [subA_cons_pos rep hne hm]
          have hci := ciLead_of_matchCond hm
          rcases ciLead_lc_take hci with ⟨ht, hle⟩
          have hdroplen : ((c :: cs).drop pat.length).length ≤ n := by
            simp only [List.length_drop]
            have : pat.length ≠ 0 := by simpa using hne
            simp only [List.length_cons] at hlen ⊢
            omega
          rw [lc_append, ih _ _ hdroplen, hlc, ← ht]
          rw [← lc_append, List.take_append_drop]
  intro s bnd
  exact main s.length s bnd (le_refl _)

theorem bndAfterW_cons (a : Char) (u : List Char) (bnd : Bool) :
    bndAfterW (a :: u) bnd = bndAfterW u (!wcC a) := by
  cases u with
  | nil => simp [bndAfterW]
  | cons b u' =>
    unfold bndAfterW
    rw [List.getLast?_cons_cons]
    cases h : (b :: u').getLast? with
    | none =>
      exfalso
      rw [List.getLast?_eq_none_iff] at h
      exact List.cons_ne_nil _ _ h
    | some d => rfl

theorem matchCond_false_of_ciLead {pat s : List Char} (bnd : Bool)
    (h : ciLead pat s = false) : matchCond pat bnd s = false := by
  unfold matchCond
  simp [h]

/-- Walking lemma: when no match starts inside `u`, the scan copies `u`
verbatim and resumes after it with the boundary state of `u`'s last
character. -/
theorem subA_walk {pat rep : List Char} :
    ∀ (u v : List Char) (bnd : Bool),
      (u ≠ [] → matchCond pat bnd (u ++ v) = false) →
      (∀ j, 1 ≤ j → j < u.length → ciLead pat (u.drop j ++ v) = false) →
      subA pat rep bnd (u ++ v) = u ++ subA pat rep (bndAfterW u bnd) v := by
  intro u
  induction u with
  | nil =>
    intro v bnd h0 hj
    simp [bndAfterW]
  | cons a u' ih =>
    intro v bnd h0 hj
    have hm : matchCond pat bnd (a :: (u' ++ v)) = false := by
      have := h0 (by simp)
      simpa using this
    rw [List.cons_append, subA_cons_neg rep hm]
    have h0' : u' ≠ [] → matchCond pat (!wcC a) (u' ++ v) = false := by
      intro hne
      apply matchCond_false_of_ciLead
      have h1 := hj 1 (le_refl 1) (by
        simp only [List.length_cons]
        have : u'.length ≠ 0 := by simpa using hne
        omega)
      simpa using h1
    have hj' : ∀ j, 1 ≤ j → j < u'.length → ciLead pat (u'.drop j ++ v) = false := by
      intro j hj1 hju
      have := hj (j + 1) (by omega) (by simp only [List.length_cons]; omega)
      simpa using this
    rw [ih v (!wcC a) h0' hj', bndAfterW_cons]
    simp

theorem ciLead_false_of_clash {p u : List Char} (v : List Char)
    (h : leadsWith ((lc p).take u.length) (lc u) = false) :
    ciLead p (u ++ v) = false := by
  cases hc : ciLead p (u ++ v) with
  | false => rfl
  | true =>
    exfalso
    rw [ciLead_eq_leadsWith, lc_append] at hc
    have h2 := leadsWith_append_take hc
    rw [lc_length] at h2
    rw [h] at h2
    exact Bool.false_ne_true h2

/-- Decidable overlap-freeness: the scanning pattern `q1` (lowercased)
cannot case-insensitively match starting strictly inside an occurrence of the
block pattern `q2` (lowercased). -/
def clashFree (q2 q1 : List Char) : Bool :=
  (List.range q2.length).all fun j =>
    j == 0 || !(leadsWith (q1.take (q2.length - j)) (q2.drop j))

theorem hj_of_clashFree {pat1 pat2 u : List Char}
    (hcf : clashFree (lc pat2) (lc pat1) = true) (hu : lc u = lc pat2) :
    ∀ (v : List Char) (j : Nat), 1 ≤ j → j < u.length →
      ciLead pat1 (u.drop j ++ v) = false := by
  intro v j hj1 hju
  apply ciLead_false_of_clash
  have hlen : u.length = pat2.length := length_eq_of_lc hu
  have hdrop : lc (u.drop j) = (lc pat2).drop j := by rw [lc_drop, hu]
  have hdl : (u.drop j).length = (lc pat2).length - j := by
    simp [List.length_drop, hlen, lc_length]
  rw [hdrop, hdl]
  have hjmem : j ∈ List.range (lc pat2).length := by
    rw [List.mem_range, lc_length]
    omega
  have hall := List.all_eq_true.1 hcf j hjmem
  simp only [Bool.or_eq_true, beq_iff_eq, Bool.not_eq_true'] at hall
  rcases hall with h0 | h
  · omega
  · exact h

theorem subA_pos {pat : List Char} (rep : List Char) {bnd : Bool} {s : List Char}
    (hne : pat ≠ []) (hs : s ≠ []) (h : matchCond pat bnd s = true) :
    subA pat rep bnd s =
      rep ++ subA pat rep (bndAfterW (s.take pat.length) bnd)
        (s.drop pat.length) := by
  match s with
  | [] => exact absurd rfl hs
  | c :: cs => exact subA_cons_pos rep hne h

theorem rep_ne_nil {pat rep : List Char} (hlc : lc rep = lc pat) (hne : pat ≠ []) :
    rep ≠ [] := by
  intro hcon
  apply hne
  have := length_eq_of_lc hlc
  rw [hcon] at this
  simpa using (List.length_eq_zero.1 this.symm)

/-- One substitution pass is idempotent when the replacement is a
case-variant of the pattern: the second pass re-matches exactly at the
replaced blocks and rewrites them with the same text. -/
theorem subA_idem {pat rep : List Char} (hlc : lc rep = lc pat) (hne : pat ≠ []) :
    ∀ (s : List Char) (bnd : Bool),
      subA pat rep bnd (subA pat rep bnd s) = subA pat rep bnd s := by
  have hrl : rep.length = pat.length := length_eq_of_lc hlc
  have main : ∀ (n : Nat) (s : List Char) (bnd : Bool), s.length ≤ n →
      subA pat rep bnd (subA pat rep bnd s) = subA pat rep bnd s := by
    intro n
    induction n with
    | zero =>
      intro s bnd hlen
      rw [List.length_eq_zero.1 (Nat.le_zero.1 hlen)]
      simp [subA_nil]
    | succ n ih =>
      intro s bnd hlen
      match s with
      | [] => simp [subA_nil]
      | c :: cs =>
        cases hm : matchCond pat bnd (c :: cs) with
        | false =>
          rw [subA_cons_neg rep hm]
          have hlcrest : lc (subA pat rep (!wcC c) cs) = lc cs :=
            lc_subA hlc hne cs _
          have hm2 : matchCond pat bnd (c :: subA pat rep (!wcC c) cs) = false := by
            rw [matchCond_congr pat bnd
              (show lc (c :: subA pat rep (!wcC c) cs) = lc (c :: cs) by
                simp only [lc, List.map_cons]
                rw [show List.map lowerC (subA pat rep (!wcC c) cs) =
                  lc (subA pat rep (!wcC c) cs) from rfl, hlcrest]; rfl)]
            exact hm
          rw [subA_cons_neg rep hm2]
          have hcs : cs.length ≤ n := by simp only [List.length_cons] at hlen; omega
          rw [ih cs (!wcC c) hcs]
        | true =>
          rw [subA_cons_pos rep hne hm]
          have hci := ciLead_of_matchCond hm
          rcases ciLead_lc_take hci with ⟨htlc, hple⟩
          have hlcd : lc (subA pat rep (bndAfterW ((c :: cs).take pat.length) bnd)
              ((c :: cs).drop pat.length)) = lc ((c :: cs).drop pat.length) :=
            lc_subA hlc hne _ _
          have hlcy : lc (rep ++ subA pat rep (bndAfterW ((c :: cs).take pat.length) bnd)
              ((c :: cs).drop pat.length)) = lc (c :: cs) := by
            rw [lc_append, hlcd, hlc, ← htlc, ← lc_append, List.take_append_drop]
          have hm2 : matchCond pat bnd (rep ++ subA pat rep
              (bndAfterW ((c :: cs).take pat.length) bnd)
              ((c :: cs).drop pat.length)) = true := by
            rw [matchCond_congr pat bnd hlcy]
            exact hm
          have hyne : rep ++ subA pat rep (bndAfterW ((c :: cs).take pat.length) bnd)
              ((c :: cs).drop pat.length) ≠ [] := by
            intro hcon
            exact rep_ne_nil hlc hne (List.append_eq_nil.1 hcon).1
          rw [subA_pos rep hne hyne hm2]
          have htake : (rep ++ subA pat rep (bndAfterW ((c :: cs).take pat.length) bnd)
              ((c :: cs).drop pat.length)).take pat.length = rep := by
            rw [← hrl, List.take_left]
          have hdrop2 : (rep ++ subA pat rep (bndAfterW ((c :: cs).take pat.length) bnd)
              ((c :: cs).drop pat.length)).drop pat.length =
              subA pat rep (bndAfterW ((c :: cs).take pat.length) bnd)
                ((c :: cs).drop pat.length) := by
            rw [← hrl, List.drop_left]
          rw [htake, hdrop2]
          have hbw : bndAfterW rep bnd = bndAfterW ((c :: cs).take pat.length) bnd :=
            bndAfterW_congr bnd (by rw [hlc, ← htlc])
          rw [hbw]
          have hdlen : ((c :: cs).drop pat.length).length ≤ n := by
            simp only [List.length_drop, List.length_cons] at *
            have : pat.length ≠ 0 := by simpa using hne
            omega
          rw [ih _ _ hdlen]
  intro s bnd
  exact main s.length s bnd (le_refl _)

theorem leadsWith_of_both {a b s : List Char} (ha : leadsWith a s = true)
    (hb : leadsWith b s = true) (hab : a.length ≤ b.length) :
    leadsWith a b = true := by
  rcases leadsWith_iff_take.1 ha with ⟨ha1, _⟩
  rcases leadsWith_iff_take.1 hb with ⟨hb1, _⟩
  have hba : b.take a.length = a := by
    rw [← hb1, List.take_take, Nat.min_eq_left hab, ha1]
  rw [← hba]
  exact take_leadsWith _ _

/-- Being a fixed point of the `pat1`-substitution is preserved by a
`pat2`-substitution pass, provided the two patterns cannot overlap
(`clashFree` both ways, no head clash) and both replacements are
case-variants. -/
theorem subA_fix_pres {pat1 rep1 pat2 rep2 : List Char}
    (hlc1 : lc rep1 = lc pat1) (hlc2 : lc rep2 = lc pat2)
    (hne1 : pat1 ≠ []) (hne2 : pat2 ≠ [])
    (hcf21 : clashFree (lc pat2) (lc pat1) = true)
    (hcf12 : clashFree (lc pat1) (lc pat2) = true)
    (hhc1 : leadsWith (lc pat1) (lc pat2) = false)
    (hhc2 : leadsWith (lc pat2) (lc pat1) = false) :
    ∀ (s : List Char) (bnd : Bool), subA pat1 rep1 bnd s = s →
      subA pat1 rep1 bnd (subA pat2 rep2 bnd s) = subA pat2 rep2 bnd s := by
  have hrl1 : rep1.length = pat1.length := length_eq_of_lc hlc1
  have hrl2 : rep2.length = pat2.length := length_eq_of_lc hlc2
  have main : ∀ (n : Nat) (s : List Char) (bnd : Bool), s.length ≤ n →
      subA pat1 rep1 bnd s = s →
      subA pat1 rep1 bnd (subA pat2 rep2 bnd s) = subA pat2 rep2 bnd s := by
    intro n
    induction n with
    | zero =>
      intro s bnd hlen _
      rw [List.length_eq_zero.1 (Nat.le_zero.1 hlen)]
      simp [subA_nil]
    | succ n ih =>
      intro s bnd hlen hfix
      match s with
      | [] => simp [subA_nil]
      | c :: cs =>
        cases hm2 : matchCond pat2 bnd (c :: cs) with
        | false =>
          cases hm1 : matchCond pat1 bnd (c :: cs) with
          | false =>
            -- case (i): neither pattern matches at the head
            rw [subA_cons_neg rep1 hm1] at hfix
            have hfv : subA pat1 rep1 (!wcC c) cs = cs := by simpa using hfix
            rw [subA_cons_neg rep2 hm2]
            have hm1' : matchCond pat1 bnd (c :: subA pat2 rep2 (!wcC c) cs) = false := by
              rw [matchCond_congr pat1 bnd
                (show lc (c :: subA pat2 rep2 (!wcC c) cs) = lc (c :: cs) by
                  simp only [lc, List.map_cons]
                  rw [show List.map lowerC (subA pat2 rep2 (!wcC c) cs) =
                    lc (subA pat2 rep2 (!wcC c) cs) from rfl, lc_subA hlc2 hne2 cs _]
                  rfl)]
              exact hm1
            rw [subA_cons_neg rep1 hm1']
            have hcs : cs.length ≤ n := by simp only [List.length_cons] at hlen; omega
            rw [ih cs (!wcC c) hcs hfv]
          | true =>
            -- case (iii): only pat1 matches at the head
            have hci1 := ciLead_of_matchCond hm1
            rcases ciLead_lc_take hci1 with ⟨hulc, hple⟩
            have hulen : ((c :: cs).take pat1.length).length = pat1.length := by
              rw [List.length_take]
              exact Nat.min_eq_left hple
            have huv : (c :: cs).take pat1.length ++ (c :: cs).drop pat1.length = c :: cs :=
              List.take_append_drop _ _
            -- unfold the fixed-point hypothesis at the match
            rw [subA_cons_pos rep1 hne1 hm1] at hfix
            have hsplit := List.append_inj (hfix.trans huv.symm) (by rw [hrl1, hulen])
            have hrepu : rep1 = (c :: cs).take pat1.length := hsplit.1
            have hfv : subA pat1 rep1 (bndAfterW ((c :: cs).take pat1.length) bnd)
                ((c :: cs).drop pat1.length) = (c :: cs).drop pat1.length := hsplit.2
            -- scan2 walks through the matched block
            have hune : (c :: cs).take pat1.length ≠ [] := by
              intro hcon
              rw [hcon] at hulen
              exact hne1 (List.length_eq_zero.1 (by simpa using hulen.symm))
            have h0 : (c :: cs).take pat1.length ≠ [] →
                matchCond pat2 bnd
                  ((c :: cs).take pat1.length ++ (c :: cs).drop pat1.length) = false := by
              intro _
              rw [huv]
              exact hm2
            have hj := hj_of_clashFree hcf12 hulc ((c :: cs).drop pat1.length)
            have hw := @subA_walk pat2 rep2 ((c :: cs).take pat1.length)
              ((c :: cs).drop pat1.length) bnd h0 hj
            rw [huv] at hw
            rw [hw]
            -- the outer scan1 pass re-matches at the block
            have hlcy : lc ((c :: cs).take pat1.length ++
                subA pat2 rep2 (bndAfterW ((c :: cs).take pat1.length) bnd)
                  ((c :: cs).drop pat1.length)) = lc (c :: cs) := by
              rw [lc_append, lc_subA hlc2 hne2, ← lc_append, huv]
            have hm1' : matchCond pat1 bnd ((c :: cs).take pat1.length ++
                subA pat2 rep2 (bndAfterW ((c :: cs).take pat1.length) bnd)
                  ((c :: cs).drop pat1.length)) = true := by
              rw [matchCond_congr pat1 bnd hlcy]
              exact hm1
            have hyne : (c :: cs).take pat1.length ++
                subA pat2 rep2 (bndAfterW ((c :: cs).take pat1.length) bnd)
                  ((c :: cs).drop pat1.length) ≠ [] := by
              intro hcon
              exact hune (List.append_eq_nil.1 hcon).1
            rw [subA_pos rep1 hne1 hyne hm1']
            have htk : ((c :: cs).take pat1.length ++
                subA pat2 rep2 (bndAfterW ((c :: cs).take pat1.length) bnd)
                  ((c :: cs).drop pat1.length)).take pat1.length =
                (c :: cs).take pat1.length := List.take_left' hulen
            have hdr : ((c :: cs).take pat1.length ++
                subA pat2 rep2 (bndAfterW ((c :: cs).take pat1.length) bnd)
                  ((c :: cs).drop pat1.length)).drop pat1.length =
                subA pat2 rep2 (bndAfterW ((c :: cs).take pat1.length) bnd)
                  ((c :: cs).drop pat1.length) := List.drop_left' hulen
            rw [htk, hdr]
            have hdlen : ((c :: cs).drop pat1.length).length ≤ n := by
              simp only [List.length_drop, List.length_cons] at *
              have : pat1.length ≠ 0 := by simpa using hne1
              omega
            rw [ih _ _ hdlen hfv]
            rw [← hrepu]
        | true =>
          cases hm1 : matchCond pat1 bnd (c :: cs) with
          | true =>
            exfalso
            have hci1 := ciLead_of_matchCond hm1
            have hci2 := ciLead_of_matchCond hm2
            rw [ciLead_eq_leadsWith] at hci1 hci2
            rcases Nat.le_total (lc pat1).length (lc pat2).length with hle | hle
            · rw [leadsWith_of_both hci1 hci2 hle] at hhc1
              exact absurd hhc1 (by decide)
            · rw [leadsWith_of_both hci2 hci1 hle] at hhc2
              exact absurd hhc2 (by decide)
          | false =>
            -- case (ii): only pat2 matches at the head
            have hci2 := ciLead_of_matchCond hm2
            rcases ciLead_lc_take hci2 with ⟨hulc, hple⟩
            have hulen : ((c :: cs).take pat2.length).length = pat2.length := by
              rw [List.length_take]
              exact Nat.min_eq_left hple
            have huv : (c :: cs).take pat2.length ++ (c :: cs).drop pat2.length = c :: cs :=
              List.take_append_drop _ _
            have hune : (c :: cs).take pat2.length ≠ [] := by
              intro hcon
              rw [hcon] at hulen
              exact hne2 (List.length_eq_zero.1 (by simpa using hulen.symm))
            -- scan1 walks through the block that pat2 matches
            have h0 : (c :: cs).take pat2.length ≠ [] →
                matchCond pat1 bnd
                  ((c :: cs).take pat2.length ++ (c :: cs).drop pat2.length) = false := by
              intro _
              rw [huv]
              exact hm1
            have hj := hj_of_clashFree hcf21 hulc ((c :: cs).drop pat2.length)
            have hw := @subA_walk pat1 rep1 ((c :: cs).take pat2.length)
              ((c :: cs).drop pat2.length) bnd h0 hj
            rw [huv] at hw
            rw [hw] at hfix
            have hfv : subA pat1 rep1 (bndAfterW ((c :: cs).take pat2.length) bnd)
                ((c :: cs).drop pat2.length) = (c :: cs).drop pat2.length := by
              have := hfix.trans huv.symm
              exact List.append_cancel_left this
            -- the pat2 pass
            rw [subA_cons_pos rep2 hne2 hm2]
            -- the outer scan1 walks through rep2
            have hlcr : lc rep2 = lc ((c :: cs).take pat2.length) := by
              rw [hlc2, hulc]
            have h0' : rep2 ≠ [] →
                matchCond pat1 bnd (rep2 ++
                  subA pat2 rep2 (bndAfterW ((c :: cs).take pat2.length) bnd)
                    ((c :: cs).drop pat2.length)) = false := by
              intro _
              rw [matchCond_congr pat1 bnd
                (show lc (rep2 ++
                    subA pat2 rep2 (bndAfterW ((c :: cs).take pat2.length) bnd)
                      ((c :: cs).drop pat2.length)) = lc (c :: cs) by
                  rw [lc_append, lc_subA hlc2 hne2, hlcr, ← lc_append, huv])]
            
              exact hm1
            have hj' := hj_of_clashFree hcf21 hlc2
              (subA pat2 rep2 (bndAfterW ((c :: cs).take pat2.length) bnd)
                ((c :: cs).drop pat2.length))
            have hw' := @subA_walk pat1 rep1 rep2
              (subA pat2 rep2 (bndAfterW ((c :: cs).take pat2.length) bnd)
                ((c :: cs).drop pat2.length)) bnd h0' hj'
            rw [hw']
            have hbw : bndAfterW rep2 bnd = bndAfterW ((c :: cs).take pat2.length) bnd :=
              bndAfterW_congr bnd hlcr
            rw [hbw]
            have hdlen : ((c :: cs).drop pat2.length).length ≤ n := by
              simp only [List.length_drop, List.length_cons] at *
              have : pat2.length ≠ 0 := by simpa using hne2
              omega
            rw [ih _ _ hdlen hfv]
  intro s bnd hfix
  exact main s.length s bnd (le_refl _) hfix

/-- Whitespace well-formedness of the collapsed interior: every whitespace
character is a single space followed by a non-whitespace character. -/
def goodT : List Char → Bool
  | [] => true
  | c :: cs =>
    (if isWsC c then
      c == ' ' && (match cs with | [] => false | d :: _ => !isWsC d)
    else true) && goodT cs

/-- The head, when present, is not whitespace. -/
def headOK : List Char → Bool
  | [] => true
  | c :: _ => !isWsC c

/-- The last character, when present, is not whitespace. -/
def trailOK (l : List Char) : Bool :=
  match l.getLast? with
  | some c => !isWsC c
  | none => true

/-- The normal form produced by `collapseWsL ∘ pyStripL`. -/
def nfB (l : List Char) : Bool := headOK l && goodT l

theorem goodT_tail {c : Char} {cs : List Char} (h : goodT (c :: cs) = true) :
    goodT cs = true := by
  unfold goodT at h
  simp only [Bool.and_eq_true] at h
  exact h.2

theorem collapse_of_goodT : ∀ {l : List Char}, goodT l = true → collapseWsL l = l := by
  intro l
  induction l with
  | nil => intro _; rfl
  | cons c cs ih =>
    intro h
    have htl := goodT_tail h
    unfold goodT at h
    simp only [Bool.and_eq_true] at h
    have hhead := h.1
    by_cases hws : isWsC c = true
    · rw [if_pos hws] at hhead
      simp only [Bool.and_eq_true] at hhead
      rcases hhead with ⟨hsp, hnext⟩
      have hc : c = ' ' := by simpa using hsp
      cases cs with
      | nil => simp at hnext
      | cons d ds =>
        have hd : isWsC d = false := by simpa using hnext
        have hcol : collapseWsL (d :: ds) = d :: ds := ih htl
        rw [collapseWsL, if_pos hws]
        rw [skipWsL, if_neg (by simp [hd])]
        rw [collapseWsL, if_neg (by simp [hd])] at hcol
        have hds : collapseWsL ds = ds := by
          injection hcol
        rw [hds, hc]
    · rw [collapseWsL, if_neg hws, ih htl]

theorem getLast?_nonWs_of_goodT : ∀ {l : List Char}, goodT l = true →
    ∀ {x : Char}, l.getLast? = some x → isWsC x = false := by
  intro l
  induction l with
  | nil => intro _ x hx; simp at hx
  | cons c cs ih =>
    intro h x hx
    cases cs with
    | nil =>
      simp only [List.getLast?_singleton, Option.some.injEq] at hx
      unfold goodT at h
      by_cases hws : isWsC c = true
      · rw [if_pos hws] at h
        simp at h
      · rw [← hx]
        simpa using hws
    | cons d ds =>
      rw [List.getLast?_cons_cons] at hx
      exact ih (goodT_tail h) hx

theorem head?_dropWhile_not {p : Char → Bool} : ∀ {l : List Char} {c : Char},
    (l.dropWhile p).head? = some c → p c = false := by
  intro l
  induction l with
  | nil => intro c hc; simp at hc
  | cons a as' ih =>
    intro c hc
    rw [List.dropWhile_cons] at hc
    split at hc
    · exact ih hc
    · next hpa =>
      simp only [List.head?_cons, Option.some.injEq] at hc
      subst hc
      simpa using hpa

theorem headOK_dropWhile (l : List Char) : headOK (l.dropWhile isWsC) = true := by
  cases hd : l.dropWhile isWsC with
  | nil => rfl
  | cons c cs =>
    unfold headOK
    have : (l.dropWhile isWsC).head? = some c := by rw [hd]; rfl
    simp [head?_dropWhile_not this]

theorem headOK_take (l : List Char) (n : Nat) (h : headOK l = true) :
    headOK (l.take n) = true := by
  cases l with
  | nil => simp [headOK]
  | cons c cs =>
    cases n with
    | zero => rfl
    | succ n => simpa [headOK, List.take_succ_cons] using h

theorem backTrim_take (l : List Char) (p : Char → Bool) :
    (l.reverse.dropWhile p).reverse = l.take (l.reverse.dropWhile p).length := by
  rcases List.dropWhile_suffix p (l := l.reverse) with ⟨t, ht⟩
  have hl : l = (l.reverse.dropWhile p).reverse ++ t.reverse := by
    rw [← List.reverse_append, ht, List.reverse_reverse]
  obtain ⟨m, hm⟩ : ∃ m, (l.reverse.dropWhile p).length = m := ⟨_, rfl⟩
  rw [hm]
  conv_rhs => rw [hl]
  rw [List.take_left' (by rw [List.length_reverse]; exact hm)]

theorem headOK_pyStripL (l : List Char) : headOK (pyStripL l) = true := by
  unfold pyStripL
  rw [backTrim_take]
  exact headOK_take _ _ (headOK_dropWhile l)

theorem trailOK_pyStripL (l : List Char) : trailOK (pyStripL l) = true := by
  unfold pyStripL trailOK
  rw [List.getLast?_reverse]
  cases hh : ((l.dropWhile isWsC).reverse.dropWhile isWsC).head? with
  | none => rfl
  | some c => simp [head?_dropWhile_not hh]

theorem trailOK_cons {c : Char} {cs : List Char} (hne : cs ≠ []) :
    trailOK (c :: cs) = trailOK cs := by
  unfold trailOK
  cases cs with
  | nil => exact absurd rfl hne
  | cons d ds => rw [List.getLast?_cons_cons]

theorem skipWsL_ne_nil : ∀ {l : List Char}, trailOK l = true → l ≠ [] →
    skipWsL l ≠ [] := by
  intro l
  induction l with
  | nil => intro _ h; exact absurd rfl h
  | cons c cs ih =>
    intro ht _
    by_cases hws : isWsC c = true
    · have hcs : cs ≠ [] := by
        intro hcon
        subst hcon
        unfold trailOK at ht
        simp only [List.getLast?_singleton] at ht
        rw [hws] at ht
        simp at ht
      rw [skipWsL, if_pos hws]
      exact ih (by rw [← trailOK_cons hcs]; exact ht) hcs
    · rw [skipWsL, if_neg hws]
      simp

theorem skip_head?_nonWs : ∀ {l : List Char} {c : Char},
    (skipWsL l).head? = some c → isWsC c = false := by
  intro l
  induction l with
  | nil => intro c hc; simp [skipWsL] at hc
  | cons a as' ih =>
    intro c hc
    rw [skipWsL] at hc
    split at hc
    · exact ih hc
    · next hpa =>
      simp only [List.head?_cons, Option.some.injEq] at hc
      subst hc
      simpa using hpa

theorem goodT_collapse_skip : ∀ (l : List Char),
    (trailOK l = true → goodT (collapseWsL l) = true) ∧
    (trailOK l = true → goodT (skipWsL l) = true) := by
  intro l
  induction l with
  | nil => exact ⟨fun _ => rfl, fun _ => rfl⟩
  | cons c cs ih =>
    constructor
    · intro ht
      by_cases hws : isWsC c = true
      · have hcs : cs ≠ [] := by
          intro hcon
          subst hcon
          unfold trailOK at ht
          simp only [List.getLast?_singleton] at ht
          rw [hws] at ht
          simp at ht
        have htcs : trailOK cs = true := by rw [← trailOK_cons hcs]; exact ht
        rw [collapseWsL, if_pos hws]
        unfold goodT
        rw [if_pos (by decide)]
        have hgs := ih.2 htcs
        cases hsk : skipWsL cs with
        | nil => exact absurd hsk (skipWsL_ne_nil htcs hcs)
        | cons d ds =>
          have hd : isWsC d = false := skip_head?_nonWs (by rw [hsk]; rfl)
          rw [hsk] at hgs
          simp [hd, hgs]
      · have htcs : trailOK cs = true := by
          cases hcs : cs with
          | nil => rfl
          | cons d ds => rw [← trailOK_cons (by simp), ← hcs]; exact ht
        rw [collapseWsL, if_neg hws]
        unfold goodT
        rw [if_neg hws]
        simp [ih.1 htcs]
    · intro ht
      by_cases hws : isWsC c = true
      · rw [skipWsL, if_pos hws]
        by_cases hcs : cs = []
        · subst hcs; rfl
        · exact ih.2 (by rw [← trailOK_cons hcs]; exact ht)
      · have htcs : trailOK cs = true := by
          cases hcs : cs with
          | nil => rfl
          | cons d ds => rw [← trailOK_cons (by simp), ← hcs]; exact ht
        rw [skipWsL, if_neg hws]
        unfold goodT
        rw [if_neg hws]
        simp [ih.1 htcs]

theorem headOK_collapse {l : List Char} (h : headOK l = true) :
    headOK (collapseWsL l) = true := by
  cases l with
  | nil => rfl
  | cons c cs =>
    have hws : isWsC c = false := by simpa [headOK] using h
    rw [collapseWsL, if_neg (by simp [hws])]
    simpa [headOK] using h

/-- The seed string `collapseWsL (pyStripL q)` is in whitespace normal form. -/
theorem nfB_collapse_strip (q : List Char) :
    nfB (collapseWsL (pyStripL q)) = true := by
  unfold nfB
  rw [headOK_collapse (headOK_pyStripL q),
    (goodT_collapse_skip (pyStripL q)).1 (trailOK_pyStripL q)]
  rfl

theorem space_congr {c d : Char} (h : lowerC c = lowerC d) : (c == ' ') = (d == ' ') := by
  by_cases hc : c = ' '
  · subst hc
    have he := eq_of_lowerC_eq_of_isWsC h (by decide)
    rw [← he]
  · by_cases hd : d = ' '
    · subst hd
      have he := eq_of_lowerC_eq_of_isWsC h.symm (by decide)
      exact absurd he.symm hc
    · simp [hc, hd]

theorem headOK_congr {l l' : List Char} (h : lc l = lc l') : headOK l = headOK l' := by
  cases l with
  | nil =>
    cases l' with
    | nil => rfl
    | cons c' cs' => simp [lc] at h
  | cons c cs =>
    cases l' with
    | nil => simp [lc] at h
    | cons c' cs' =>
      simp only [lc, List.map_cons, List.cons.injEq] at h
      show (!isWsC c) = (!isWsC c')
      rw [isWsC_congr_of_lowerC h.1]

theorem goodT_congr : ∀ {l l' : List Char}, lc l = lc l' → goodT l = goodT l' := by
  intro l
  induction l with
  | nil =>
    intro l' h
    cases l' with
    | nil => rfl
    | cons c' cs' => simp [lc] at h
  | cons c cs ih =>
    intro l' h
    cases l' with
    | nil => simp [lc] at h
    | cons c' cs' =>
      simp only [lc, List.map_cons, List.cons.injEq] at h
      have h2 : lc cs = lc cs' := h.2
      unfold goodT
      rw [ih h2, isWsC_congr_of_lowerC h.1, space_congr h.1]
      congr 1
      by_cases hws : isWsC c' = true
      · rw [if_pos hws, if_pos hws]
        congr 1
        cases cs with
        | nil =>
          cases cs' with
          | nil => rfl
          | cons d' ds' => simp [lc] at h2
        | cons d ds =>
          cases cs' with
          | nil => simp [lc] at h2
          | cons d' ds' =>
            simp only [lc, List.map_cons, List.cons.injEq] at h2
            show (!isWsC d) = (!isWsC d')
            rw [isWsC_congr_of_lowerC h2.1]
      · rw [if_neg hws, if_neg hws]

theorem nfB_congr {l l' : List Char} (h : lc l = lc l') : nfB l = nfB l' := by
  unfold nfB
  rw [headOK_congr h, goodT_congr h]

theorem strip_collapse_fix_of_nfB {l : List Char} (h : nfB l = true) :
    pyStripL l = l ∧ collapseWsL l = l := by
  unfold nfB at h
  simp only [Bool.and_eq_true] at h
  constructor
  · unfold pyStripL
    have h1 : l.dropWhile isWsC = l := by
      cases l with
      | nil => rfl
      | cons c cs =>
        have hc : isWsC c = false := by simpa [headOK] using h.1
        rw [List.dropWhile_cons, if_neg (by simp [hc])]
    rw [h1]
    have h2 : l.reverse.dropWhile isWsC = l.reverse := by
      cases hr : l.reverse with
      | nil => rfl
      | cons c cs =>
        have hc : l.getLast? = some c := by rw [← List.head?_reverse, hr]; rfl
        have hcw : isWsC c = false := getLast?_nonWs_of_goodT h.2 hc
        rw [List.dropWhile_cons, if_neg (by simp [hcw])]
    rw [h2, List.reverse_reverse]
  · exact collapse_of_goodT h.2

theorem subAll_eq (l : List Char) :
    subAll l =
      subA "ipad".data "iPad".data true
        (subA "iphone".data "iPhone".data true
          (subA "macbook air".data "MacBook Air".data true
            (subA "macbook pro".data "MacBook Pro".data true l))) := rfl

theorem lc_subAll (l : List Char) : lc (subAll l) = lc l := by
  rw [subAll_eq,
    lc_subA (by decide) (by decide), lc_subA (by decide) (by decide),
    lc_subA (by decide) (by decide), lc_subA (by decide) (by decide)]

/-- Each of the four substitution passes fixes the output of the whole
replacement loop. -/
theorem subAll_fix (l : List Char) :
    subA "macbook pro".data "MacBook Pro".data true (subAll l) = subAll l ∧
    subA "macbook air".data "MacBook Air".data true (subAll l) = subAll l ∧
    subA "iphone".data "iPhone".data true (subAll l) = subAll l ∧
    subA "ipad".data "iPad".data true (subAll l) = subAll l := by
  have f11 := @subA_idem "macbook pro".data "MacBook Pro".data (by decide) (by decide)
    l true
  have f12 := @subA_fix_pres "macbook pro".data "MacBook Pro".data
    "macbook air".data "MacBook Air".data (by decide) (by decide) (by decide)
    (by decide) (by decide) (by decide) (by decide) (by decide)
    (subA "macbook pro".data "MacBook Pro".data true l) true f11
  have f13 := @subA_fix_pres "macbook pro".data "MacBook Pro".data
    "iphone".data "iPhone".data (by decide) (by decide) (by decide)
    (by decide) (by decide) (by decide) (by decide) (by decide)
    (subA "macbook air".data "MacBook Air".data true
      (subA "macbook pro".data "MacBook Pro".data true l)) true f12
  have f14 := @subA_fix_pres "macbook pro".data "MacBook Pro".data
    "ipad".data "iPad".data (by decide) (by decide) (by decide)
    (by decide) (by decide) (by decide) (by decide) (by decide)
    (subA "iphone".data "iPhone".data true
      (subA "macbook air".data "MacBook Air".data true
        (subA "macbook pro".data "MacBook Pro".data true l))) true f13
  have f22 := @subA_idem "macbook air".data "MacBook Air".data (by decide) (by decide)
    (subA "macbook pro".data "MacBook Pro".data true l) true
  have f23 := @subA_fix_pres "macbook air".data "MacBook Air".data
    "iphone".data "iPhone".data (by decide) (by decide) (by decide)
    (by decide) (by decide) (by decide) (by decide) (by decide)
    (subA "macbook air".data "MacBook Air".data true
      (subA "macbook pro".data "MacBook Pro".data true l)) true f22
  have f24 := @subA_fix_pres "macbook air".data "MacBook Air".data
    "ipad".data "iPad".data (by decide) (by decide) (by decide)
    (by decide) (by decide) (by decide) (by decide) (by decide)
    (subA "iphone".data "iPhone".data true
      (subA "macbook air".data "MacBook Air".data true
        (subA "macbook pro".data "MacBook Pro".data true l))) true f23
  have f33 := @subA_idem "iphone".data "iPhone".data (by decide) (by decide)
    (subA "macbook air".data "MacBook Air".data true
      (subA "macbook pro".data "MacBook Pro".data true l)) true
  have f34 := @subA_fix_pres "iphone".data "iPhone".data
    "ipad".data "iPad".data (by decide) (by decide) (by decide)
    (by decide) (by decide) (by decide) (by decide) (by decide)
    (subA "iphone".data "iPhone".data true
      (subA "macbook air".data "MacBook Air".data true
        (subA "macbook pro".data "MacBook Pro".data true l))) true f33
  have f44 := @subA_idem "ipad".data "iPad".data (by decide) (by decide)
    (subA "iphone".data "iPhone".data true
      (subA "macbook air".data "MacBook Air".data true
        (subA "macbook pro".data "MacBook Pro".data true l))) true
  rw [subAll_eq]
  exact ⟨f14, f24, f34, f44⟩

/-- **C8.** The Query Builder's normalization is idempotent:
`clean_search_query (clean_search_query q) = clean_search_query q` for every
input string `q`. -/
theorem C8_normalize_idem (query : String) :
    clean_search_query (clean_search_query query) = clean_search_query query := by
  unfold clean_search_query
  have hnf : nfB (subAll (collapseWsL (pyStripL query.data))) = true := by
    rw [nfB_congr (lc_subAll _)]
    exact nfB_collapse_strip query.data
  obtain ⟨hstrip, hcol⟩ := strip_collapse_fix_of_nfB hnf
  congr 1
  rw [show (String.mk (subAll (collapseWsL (pyStripL query.data)))).data =
    subAll (collapseWsL (pyStripL query.data)) from rfl]
  rw [hstrip, hcol]
  obtain ⟨g1, g2, g3, g4⟩ := subAll_fix (collapseWsL (pyStripL query.data))
  rw [subAll_eq, g1, g2, g3, g4]
